import Mathlib

/-!
Shallow embedding of `src/rag/preprocess.py` (markdown sectioner for a RAG
pipeline) together with proofs of the specification's claims about it.

Strings are modelled as `List Char`; a Python string `s` corresponds to
`s.data` of the Lean literal.  Whitespace is the ASCII whitespace set that
Python's `str.strip` and the regex class `\s` agree on for the inputs at
hand (space, tab, newline, vertical tab, form feed, carriage return).
-/

/-- ASCII whitespace, the common core of Python's `str.strip` set and the
regex class `\s` (Python additionally treats some non-ASCII code points as
whitespace; those never occur in the documents considered here). -/
def isPySpace (c : Char) : Bool :=
  c == ' ' || c == '\t' || c == '\n' || c == '\x0b' || c == '\x0c' || c == '\r'

/-- Every character of the list is whitespace. -/
def allSpace (l : List Char) : Prop := ∀ c ∈ l, isPySpace c = true

instance (l : List Char) : Decidable (allSpace l) :=
  List.decidableBAll _ l

/-- Python `content.split('\n')`: splitting on `'\n'`, never returning an
empty list (the empty string splits to `[""]`). -/
def splitLines : List Char → List (List Char)
  | [] => [[]]
  | c :: s =>
    match splitLines s with
    | [] => [[]]
    | l :: ls => if c == '\n' then [] :: l :: ls else (c :: l) :: ls

/-- Python `'\n'.join(lines)`. -/
def joinLines : List (List Char) → List Char
  | [] => []
  | [l] => l
  | l :: l2 :: ls => l ++ '\n' :: joinLines (l2 :: ls)

/-- Remove leading whitespace (left half of Python `str.strip`). -/
def ltrim (s : List Char) : List Char := s.dropWhile isPySpace

/-- Remove trailing whitespace (right half of Python `str.strip`). -/
def rtrim (s : List Char) : List Char := (s.reverse.dropWhile isPySpace).reverse

/-- Python `s.strip()`: remove leading and trailing whitespace. -/
def strip (s : List Char) : List Char := rtrim (ltrim s)

/-- Model of `re.match(r'^(#{1,5})\s+(.+)$', line)` on a newline-free line
(the sectioner only applies it to the pieces of `content.split('\n')`).
`#{1,5}` must swallow the whole leading run of `'#'` characters (a following
`'#'` satisfies neither `\s` nor a shorter hash group after backtracking), so
a run of six or more hashes can never match.  `\s+` is greedy but backtracks
one character when `(.+)` would otherwise be empty.  On success the result is
`(group 1 length, group 2)`. -/
def headerMatch (line : List Char) : Option (Nat × List Char) :=
  let hashes := line.takeWhile (fun c => c == '#')
  let rest := line.dropWhile (fun c => c == '#')
  let ws := rest.takeWhile isPySpace
  if 1 ≤ hashes.length ∧ hashes.length ≤ 5 ∧ 1 ≤ ws.length then
    if ws.length + 1 ≤ rest.length then some (hashes.length, rest.drop ws.length)
    else if 2 ≤ ws.length then some (hashes.length, rest.drop (ws.length - 1))
    else none
  else none

/-- The Python loop `for i in range(level, 5): current_headers[i] = ''`:
clear every slot at index `level .. 4`. -/
def clearBelow (hs : List (List Char)) (level : Nat) : List (List Char) :=
  (List.range 5).foldl (fun acc i => if level ≤ i then acc.set i [] else acc) hs

/-- `current_headers[level - 1] = header_text` followed by clearing all
deeper slots, exactly as in `chunk_markdown`. -/
def updateHeaders (hs : List (List Char)) (level : Nat) (text : List Char) :
    List (List Char) :=
  clearBelow (hs.set (level - 1) text) level

/-- `current_headers = ['', '', '', '', '']` — the fresh 5-slot hierarchy. -/
def initHeaders : List (List Char) := [[], [], [], [], []]

/-- The list comprehension `[h for h in current_headers if h]`: keep the
non-empty slots in level order. -/
def nonEmptySlots (hs : List (List Char)) : List (List Char) :=
  hs.filter (fun h => !h.isEmpty)

/-- One chunk record as built by `chunk_markdown`. -/
structure Chunk where
  id : List Char
  source : List Char
  headers : List (List Char)
  text : List Char
deriving DecidableEq

/-- The loop state of `chunk_markdown`: emitted chunks, the accumulator
`current_chunk`, the hierarchy `current_headers`, and the counter
`chunk_id`. -/
structure SectState where
  chunks : List Chunk
  acc : List (List Char)
  headers : List (List Char)
  chunkId : Nat
deriving DecidableEq

/-- The flush step of `chunk_markdown`: if the accumulator is non-empty,
join it with newlines and strip; if that text is non-empty, append a chunk
(with the current non-empty hierarchy slots) and bump the counter.  Returns
the new chunk list and counter; the caller resets the accumulator. -/
def flushAcc (source : List Char) (chunks : List Chunk) (acc : List (List Char))
    (headers : List (List Char)) (chunkId : Nat) : List Chunk × Nat :=
  if acc = [] then (chunks, chunkId)
  else
    let text := strip (joinLines acc)
    if text = [] then (chunks, chunkId)
    else
      (chunks ++ [{ id := source ++ '_' :: Nat.toDigits 10 chunkId
                    source := source
                    headers := nonEmptySlots headers
                    text := text }],
       chunkId + 1)

/-- The body of the `for line in lines` loop of `chunk_markdown`. -/
def stepLine (source : List Char) (st : SectState) (line : List Char) : SectState :=
  match headerMatch line with
  | some (level, g2) =>
      let flushed := flushAcc source st.chunks st.acc st.headers st.chunkId
      { chunks := flushed.1
        acc := [line]
        headers := updateHeaders st.headers level (strip g2)
        chunkId := flushed.2 }
  | none => { st with acc := st.acc ++ [line] }

/-- `chunk_markdown(content, source)`: split into lines, run the loop, and
perform the final flush for the trailing section. -/
def chunk_markdown (content source : List Char) : List Chunk :=
  let st := (splitLines content).foldl (stepLine source)
    { chunks := [], acc := [], headers := initHeaders, chunkId := 0 }
  (flushAcc source st.chunks st.acc st.headers st.chunkId).1

/-- The hierarchy transition performed by one line of the loop (no flushing,
headers only). -/
def hierStep (hs : List (List Char)) (line : List Char) : List (List Char) :=
  match headerMatch line with
  | some (level, g2) => updateHeaders hs level (strip g2)
  | none => hs

/-- The hierarchy state after scanning a list of lines. -/
def hierAfter (hs : List (List Char)) (ls : List (List Char)) : List (List Char) :=
  ls.foldl hierStep hs

/-- Python `sep.join(parts)`. -/
def joinWith (sep : List Char) : List (List Char) → List Char
  | [] => []
  | [x] => x
  | x :: y :: xs => x ++ sep ++ joinWith sep (y :: xs)

/-- The text submitted to the embedding model for one chunk, as built in
`generate_embeddings`: `' > '.join(headers) + '\n'` if there are headers,
nothing otherwise, followed by the chunk text. -/
def embedText (c : Chunk) : List Char :=
  (if c.headers.isEmpty then [] else joinWith (' ' :: '>' :: [' ']) c.headers ++ ['\n'])
    ++ c.text

/-- The list of strings handed to `model.encode` by `generate_embeddings`,
in chunk order. -/
def embeddingTexts (cs : List Chunk) : List (List Char) := cs.map embedText

/-- The embedding input as the specification words it: the chunk's headers
joined by `" > "`, then a newline, then the chunk's text, when headers exist;
the bare chunk text when they do not.  Stated from the spec for comparison
with `embedText`, which is translated from the code. -/
def embedTextSpec (c : Chunk) : List Char :=
  match c.headers with
  | [] => c.text
  | _ :: _ => joinWith (' ' :: '>' :: [' ']) c.headers ++ '\n' :: c.text

/-- Numeric value of a decimal digit character (used to invert
`Nat.toDigits`, which renders the counter in `f"{source}_{chunk_id}"`). -/
def digitVal (c : Char) : Nat := c.toNat - '0'.toNat

/-- Value of a decimal digit string, most significant digit first. -/
def digitsVal (l : List Char) : Nat := l.foldl (fun a c => 10 * a + digitVal c) 0

/-! ### Decimal rendering of the chunk counter -/

theorem digitVal_digitChar {d : Nat} (hd : d < 10) : digitVal (Nat.digitChar d) = d := by
  interval_cases d <;> rfl

theorem toDigitsCore_fuel {f g n : Nat} (ds : List Char) (hf : n < f) (hg : n < g) :
    Nat.toDigitsCore 10 f n ds = Nat.toDigitsCore 10 g n ds := by
  induction f generalizing g n ds with
  | zero => omega
  | succ f ih =>
    cases g with
    | zero => omega
    | succ g =>
      simp only [Nat.toDigitsCore]
      by_cases hdiv : n / 10 = 0
      · simp [hdiv]
      · simp only [hdiv, if_false]
        have hn10 : 10 ≤ n := by
          by_contra hh
          exact hdiv (Nat.div_eq_of_lt (by omega))
        have hlt : n / 10 < n := Nat.div_lt_self (by omega) (by omega)
        exact ih _ (by omega) (by omega)

theorem toDigitsCore_acc (f n : Nat) (ds : List Char) :
    Nat.toDigitsCore 10 f n ds = Nat.toDigitsCore 10 f n [] ++ ds := by
  induction f generalizing n ds with
  | zero => simp [Nat.toDigitsCore]
  | succ f ih =>
    simp only [Nat.toDigitsCore]
    by_cases hdiv : n / 10 = 0
    · simp [hdiv]
    · simp only [hdiv, if_false]
      rw [ih (n / 10) (Nat.digitChar (n % 10) :: ds), ih (n / 10) [Nat.digitChar (n % 10)]]
      simp

theorem digitsVal_append_singleton (l : List Char) (c : Char) :
    digitsVal (l ++ [c]) = 10 * digitsVal l + digitVal c := by
  unfold digitsVal
  rw [List.foldl_append]
  rfl

theorem digitsVal_toDigits (n : Nat) : digitsVal (Nat.toDigits 10 n) = n := by
  induction n using Nat.strong_induction_on with
  | _ n ih =>
    unfold Nat.toDigits
    by_cases hdiv : n / 10 = 0
    · have hrw : Nat.toDigitsCore 10 (n + 1) n [] = [Nat.digitChar (n % 10)] := by
        simp [Nat.toDigitsCore, hdiv]
      rw [hrw]
      have hn : n < 10 := by
        by_contra hh
        have : 1 ≤ n / 10 := Nat.le_div_iff_mul_le (by omega) |>.mpr (by omega)
        omega
      show 10 * 0 + digitVal (Nat.digitChar (n % 10)) = n
      rw [digitVal_digitChar (by omega)]
      omega
    · have h10 : 10 ≤ n := by
        by_contra hh
        exact hdiv (Nat.div_eq_of_lt (by omega))
      have hlt : n / 10 < n := Nat.div_lt_self (by omega) (by omega)
      have hstep : Nat.toDigitsCore 10 (n + 1) n [] =
          Nat.toDigitsCore 10 n (n / 10) [Nat.digitChar (n % 10)] := by
        simp [Nat.toDigitsCore, hdiv]
      rw [hstep, toDigitsCore_acc, toDigitsCore_fuel [] (by omega) (Nat.lt_succ_self _),
        digitsVal_append_singleton]
      have hih := ih (n / 10) hlt
      unfold Nat.toDigits at hih
      rw [hih, digitVal_digitChar (Nat.mod_lt _ (by omega))]
      omega

theorem toDigits_ten_injective {a b : Nat} (h : Nat.toDigits 10 a = Nat.toDigits 10 b) :
    a = b := by
  have hv := congrArg digitsVal h
  rwa [digitsVal_toDigits, digitsVal_toDigits] at hv

theorem chunkId_render_injective (source : List Char) :
    Function.Injective (fun i => source ++ '_' :: Nat.toDigits 10 i) := by
  intro a b h
  simp only at h
  have h2 := List.append_cancel_left h
  exact toDigits_ten_injective (List.cons.injEq _ _ _ _ |>.mp h2).2

/-! ### Basic lemmas about lines, joining and trimming -/

theorem splitLines_ne_nil (s : List Char) : splitLines s ≠ [] := by
  cases s with
  | nil => simp [splitLines]
  | cons c s =>
    simp only [splitLines]
    cases h : splitLines s with
    | nil => simp
    | cons l ls =>
      by_cases hc : c == '\n' <;> simp [hc]

theorem joinLines_cons_cons (c : Char) (l : List Char) (ls : List (List Char)) :
    joinLines ((c :: l) :: ls) = c :: joinLines (l :: ls) := by
  cases ls with
  | nil => rfl
  | cons l2 ls => rfl

theorem joinLines_splitLines (s : List Char) : joinLines (splitLines s) = s := by
  induction s with
  | nil => rfl
  | cons c s ih =>
    simp only [splitLines]
    cases h : splitLines s with
    | nil => exact absurd h (splitLines_ne_nil s)
    | cons l ls =>
      rw [h] at ih
      by_cases hc : c == '\n'
      · have hc' : c = '\n' := by simpa using hc
        simp only [hc, if_pos, hc']
        cases ls with
        | nil => simpa [joinLines] using ih
        | cons l2 ls' => simpa [joinLines] using ih
      · simp only [hc, if_neg, Bool.false_eq_true, not_false_iff]
        rw [joinLines_cons_cons, ih]

theorem mem_of_mem_splitLines {s : List Char} {l : List Char} {c : Char}
    (hl : l ∈ splitLines s) (hc : c ∈ l) : c ∈ s := by
  induction s generalizing l with
  | nil =>
    simp [splitLines] at hl
    subst hl
    simp at hc
  | cons a s ih =>
    simp only [splitLines] at hl
    cases h : splitLines s with
    | nil => exact absurd h (splitLines_ne_nil s)
    | cons l0 ls =>
      rw [h] at hl
      by_cases ha : a == '\n'
      · simp only [ha, if_pos] at hl
        rw [List.mem_cons, List.mem_cons] at hl
        rcases hl with hl | hl | hl
        · subst hl; simp at hc
        · subst hl
          exact List.mem_cons_of_mem a (ih (by rw [h]; exact List.mem_cons_self _ _) hc)
        · exact List.mem_cons_of_mem a (ih (by rw [h]; exact List.mem_cons_of_mem _ hl) hc)
      · simp only [ha, Bool.false_eq_true, if_neg, not_false_iff] at hl
        rw [List.mem_cons] at hl
        rcases hl with hl | hl
        · subst hl
          rw [List.mem_cons] at hc
          rcases hc with hc | hc
          · subst hc; exact List.mem_cons_self _ _
          · exact List.mem_cons_of_mem a (ih (by rw [h]; exact List.mem_cons_self _ _) hc)
        · exact List.mem_cons_of_mem a (ih (by rw [h]; exact List.mem_cons_of_mem _ hl) hc)

theorem dropWhile_append_of_all {p : Char → Bool} {w : List Char}
    (hw : ∀ c ∈ w, p c = true) (s : List Char) :
    (w ++ s).dropWhile p = s.dropWhile p := by
  induction w with
  | nil => rfl
  | cons a w ih =>
    have ha : p a = true := hw a (List.mem_cons_self _ _)
    simp only [List.cons_append, List.dropWhile_cons_of_pos ha]
    exact ih (fun c hc => hw c (List.mem_cons_of_mem a hc))

theorem dropWhile_eq_nil_of_all {p : Char → Bool} {w : List Char}
    (hw : ∀ c ∈ w, p c = true) : w.dropWhile p = [] := by
  have := dropWhile_append_of_all hw []
  simpa using this

theorem dropWhile_idem (p : Char → Bool) (l : List Char) :
    (l.dropWhile p).dropWhile p = l.dropWhile p := by
  induction l with
  | nil => rfl
  | cons a l ih =>
    by_cases ha : p a
    · rw [List.dropWhile_cons_of_pos ha]; exact ih
    · rw [List.dropWhile_cons_of_neg ha, List.dropWhile_cons_of_neg ha]

theorem dropWhile_append_singleton_of_neg {p : Char → Bool} {c : Char}
    (hc : p c = false) (l : List Char) :
    (l ++ [c]).dropWhile p = l.dropWhile p ++ [c] := by
  induction l with
  | nil => simp [List.dropWhile_cons, hc]
  | cons a l ih =>
    by_cases ha : p a
    · simp only [List.cons_append, List.dropWhile_cons_of_pos ha]; exact ih
    · simp only [List.cons_append, List.dropWhile_cons_of_neg ha]

theorem ltrim_cons_of_neg {c : Char} (hc : isPySpace c = false) (l : List Char) :
    ltrim (c :: l) = c :: l := by
  simp [ltrim, List.dropWhile_cons, hc]

theorem rtrim_cons_of_neg {c : Char} (hc : isPySpace c = false) (l : List Char) :
    rtrim (c :: l) = c :: rtrim l := by
  simp only [rtrim, List.reverse_cons]
  rw [dropWhile_append_singleton_of_neg hc]
  simp

theorem strip_cons_of_neg {c : Char} (hc : isPySpace c = false) (l : List Char) :
    strip (c :: l) = c :: rtrim l := by
  rw [strip, ltrim_cons_of_neg hc, rtrim_cons_of_neg hc]

theorem strip_eq_nil_of_allSpace {s : List Char} (hs : allSpace s) : strip s = [] := by
  have h1 : ltrim s = [] := dropWhile_eq_nil_of_all hs
  unfold strip
  rw [h1]
  rfl

theorem ltrim_append_of_allSpace {w : List Char} (hw : allSpace w) (s : List Char) :
    ltrim (w ++ s) = ltrim s := dropWhile_append_of_all hw s

theorem rtrim_append_of_allSpace {w : List Char} (hw : allSpace w) (s : List Char) :
    rtrim (s ++ w) = rtrim s := by
  simp only [rtrim, List.reverse_append]
  rw [dropWhile_append_of_all (fun c hc => hw c (List.mem_reverse.mp hc))]

theorem dropWhile_head_neg {p : Char → Bool} {l : List Char} {c : Char} {v : List Char}
    (h : l.dropWhile p = c :: v) : p c = false := by
  induction l with
  | nil => simp [List.dropWhile_nil] at h
  | cons a l ih =>
    by_cases ha : p a
    · rw [List.dropWhile_cons_of_pos ha] at h; exact ih h
    · rw [List.dropWhile_cons_of_neg ha] at h
      rw [← List.cons.injEq a l c v |>.mp h |>.1]
      exact Bool.not_eq_true _ |>.mp ha

theorem rtrim_idem (v : List Char) : rtrim (rtrim v) = rtrim v := by
  simp only [rtrim, List.reverse_reverse]
  rw [dropWhile_idem]

theorem strip_idem (s : List Char) : strip (strip s) = strip s := by
  cases hu : ltrim s with
  | nil =>
    have h1 : strip s = [] := by unfold strip; rw [hu]; rfl
    rw [h1]; rfl
  | cons c v =>
    have hc : isPySpace c = false := dropWhile_head_neg hu
    have h1 : strip s = c :: rtrim v := by
      unfold strip; rw [hu, rtrim_cons_of_neg hc]
    rw [h1, strip_cons_of_neg hc, rtrim_idem]

theorem ltrim_suffix (s : List Char) : ltrim s <:+ s := List.dropWhile_suffix _

theorem rtrim_prefix_self (t : List Char) : rtrim t <+: t := by
  have h : (t.reverse.dropWhile isPySpace) <:+ t.reverse := List.dropWhile_suffix _
  have h2 := List.reverse_prefix.mpr h
  rwa [List.reverse_reverse] at h2

theorem strip_infix (s : List Char) : strip s <:+: s :=
  ((rtrim_prefix_self (ltrim s)).isInfix).trans ((ltrim_suffix s).isInfix)

theorem joinLines_append {a b : List (List Char)} (ha : a ≠ []) (hb : b ≠ []) :
    joinLines (a ++ b) = joinLines a ++ '\n' :: joinLines b := by
  induction a with
  | nil => exact absurd rfl ha
  | cons l a ih =>
    cases a with
    | nil =>
      cases b with
      | nil => exact absurd rfl hb
      | cons l2 b => simp [joinLines]
    | cons l2 a' =>
      have step : joinLines ((l :: l2 :: a') ++ b) = l ++ '\n' :: joinLines ((l2 :: a') ++ b) := by
        simp only [List.cons_append]
        rfl
      rw [step, ih (by simp) ]
      simp [joinLines]

theorem joinLines_infix {ls1 ls2 : List (List Char)} (h : ls1 <:+: ls2) :
    joinLines ls1 <:+: joinLines ls2 := by
  obtain ⟨a, b, rfl⟩ := h
  rcases eq_or_ne ls1 [] with h1 | h1
  · subst h1
    exact List.nil_infix
  · rcases eq_or_ne a [] with ha | ha
    · subst ha
      rcases eq_or_ne b [] with hb | hb
      · subst hb; simp
      · rw [List.nil_append, joinLines_append h1 hb]
        exact (List.prefix_append _ _).isInfix
    · rcases eq_or_ne b [] with hb | hb
      · subst hb
        rw [List.append_nil, joinLines_append ha h1]
        exact ⟨joinLines a ++ ['\n'], [], by simp⟩
      · rw [List.append_assoc, joinLines_append ha
          (fun hh => h1 (List.append_eq_nil.mp hh).1), joinLines_append h1 hb]
        exact ⟨joinLines a ++ ['\n'], '\n' :: joinLines b, by simp⟩

theorem allSpace_joinLines {ls : List (List Char)} (h : ∀ l ∈ ls, allSpace l) :
    allSpace (joinLines ls) := by
  induction ls with
  | nil => intro c hc; simp [joinLines] at hc
  | cons l ls ih =>
    cases ls with
    | nil =>
      intro c hc
      exact h l (List.mem_cons_self _ _) c hc
    | cons l2 ls' =>
      intro c hc
      have : joinLines (l :: l2 :: ls') = l ++ '\n' :: joinLines (l2 :: ls') := rfl
      rw [this] at hc
      rcases List.mem_append.mp hc with hc | hc
      · exact h l (List.mem_cons_self _ _) c hc
      · rcases List.mem_cons.mp hc with hc | hc
        · subst hc; decide
        · exact ih (fun l' hl' => h l' (List.mem_cons_of_mem _ hl')) c hc

/-! ### Lemmas about the header pattern -/

theorem takeWhile_append_of_all {p : Char → Bool} {w : List Char}
    (hw : ∀ c ∈ w, p c = true) (s : List Char) :
    (w ++ s).takeWhile p = w ++ s.takeWhile p := by
  induction w with
  | nil => rfl
  | cons a w ih =>
    have ha : p a = true := hw a (List.mem_cons_self _ _)
    simp only [List.cons_append, List.takeWhile_cons_of_pos ha, List.cons.injEq, true_and]
    exact ih (fun c hc => hw c (List.mem_cons_of_mem a hc))

theorem takeWhile_hash_replicate (l : List Char) :
    l.takeWhile (fun c => c == '#') =
      List.replicate (l.takeWhile (fun c => c == '#')).length '#' := by
  apply List.eq_replicate_of_mem
  intro c hc
  have := List.mem_takeWhile_imp hc
  simpa using this

theorem headerMatch_isSome_iff (l : List Char) :
    (headerMatch l).isSome = true ↔
      (1 ≤ (l.takeWhile (fun c => c == '#')).length ∧
       (l.takeWhile (fun c => c == '#')).length ≤ 5 ∧
       1 ≤ ((l.dropWhile (fun c => c == '#')).takeWhile isPySpace).length ∧
       2 ≤ (l.dropWhile (fun c => c == '#')).length) := by
  have hWR : ((l.dropWhile (fun c => c == '#')).takeWhile isPySpace).length ≤
      (l.dropWhile (fun c => c == '#')).length := by
    simpa using List.Sublist.length_le (List.takeWhile_sublist _)
  simp only [headerMatch]
  split_ifs with h1 h2 h3 <;> simp <;> omega

theorem headerMatch_none_of_no_hash {l : List Char}
    (h : l.takeWhile (fun c => c == '#') = []) : headerMatch l = none := by
  simp only [headerMatch, h]
  simp

theorem headerMatch_some_parts {l : List Char} {k : Nat} {g : List Char}
    (h : headerMatch l = some (k, g)) :
    k = (l.takeWhile (fun c => c == '#')).length ∧ 1 ≤ k ∧ k ≤ 5 ∧
      1 ≤ ((l.dropWhile (fun c => c == '#')).takeWhile isPySpace).length ∧
      2 ≤ (l.dropWhile (fun c => c == '#')).length := by
  have hWR : ((l.dropWhile (fun c => c == '#')).takeWhile isPySpace).length ≤
      (l.dropWhile (fun c => c == '#')).length := by
    simpa using List.Sublist.length_le (List.takeWhile_sublist _)
  simp only [headerMatch] at h
  split_ifs at h with h1 h2 h3 <;> simp_all <;> omega

theorem headerMatch_of_allSpace {l : List Char} (h : allSpace l) :
    headerMatch l = none := by
  apply headerMatch_none_of_no_hash
  cases l with
  | nil => rfl
  | cons c l =>
    have hc : isPySpace c = true := h c (List.mem_cons_self _ _)
    have hchash : ¬((fun c => c == '#') c = true) := by
      simp only [beq_iff_eq]
      intro hcc
      subst hcc
      simp [isPySpace] at hc
    exact List.takeWhile_cons_of_neg hchash

theorem headerMatch_isSome_decomp (l : List Char) :
    (headerMatch l).isSome = true ↔
      ∃ k w r, l = List.replicate k '#' ++ w ++ r ∧ 1 ≤ k ∧ k ≤ 5 ∧
        w ≠ [] ∧ allSpace w ∧ r ≠ [] := by
  rw [headerMatch_isSome_iff]
  constructor
  · rintro ⟨h1, h2, h3, h4⟩
    cases hR : l.dropWhile (fun c => c == '#') with
    | nil => rw [hR] at h4; simp at h4
    | cons c t =>
      have hc : isPySpace c = true := by
        by_cases hcs : isPySpace c
        · exact hcs
        · rw [hR, List.takeWhile_cons_of_neg hcs] at h3; simp at h3
      have ht : t ≠ [] := by
        rw [hR] at h4; simp at h4
        intro hh; subst hh; simp at h4
      refine ⟨(l.takeWhile (fun c => c == '#')).length, [c], t, ?_, h1, h2, by simp,
        ?_, ht⟩
      · conv_lhs => rw [← List.takeWhile_append_dropWhile (p := fun c => c == '#') (l := l)]
        rw [hR, ← takeWhile_hash_replicate]
        simp
      · intro x hx
        rcases List.mem_cons.mp hx with hx | hx
        · subst hx; exact hc
        · simp at hx
  · rintro ⟨k, w, r, rfl, hk1, hk5, hw, hws, hr⟩
    cases w with
    | nil => exact absurd rfl hw
    | cons c w2 =>
      have hc : isPySpace c = true := hws c (List.mem_cons_self _ _)
      have hchash : (c == '#') = false := by
        cases hcc : c == '#'
        · rfl
        · have : c = '#' := by simpa using hcc
          subst this
          simp [isPySpace] at hc
      have hrep : ∀ x ∈ List.replicate k '#', (fun c => c == '#') x = true := by
        intro x hx
        have := List.eq_of_mem_replicate hx
        simp [this]
      have hH : ((List.replicate k '#' ++ (c :: w2) ++ r).takeWhile (fun c => c == '#')) =
          List.replicate k '#' := by
        rw [List.append_assoc, takeWhile_append_of_all hrep]
        rw [List.cons_append, List.takeWhile_cons_of_neg (by simp [hchash])]
        simp
      have hRR : ((List.replicate k '#' ++ (c :: w2) ++ r).dropWhile (fun c => c == '#')) =
          (c :: w2) ++ r := by
        rw [List.append_assoc, dropWhile_append_of_all hrep]
        rw [List.cons_append, List.dropWhile_cons_of_neg (by simp [hchash])]
      refine ⟨by rw [hH]; simpa using hk1, by rw [hH]; simpa using hk5, ?_, ?_⟩
      · rw [hRR, List.cons_append, List.takeWhile_cons_of_pos hc]
        simp
      · rw [hRR]
        simp only [List.length_append, List.length_cons]
        cases r with
        | nil => exact absurd rfl hr
        | cons r0 rs => simp; omega

theorem headerMatch_some_shape {l : List Char} {k : Nat} {g : List Char}
    (h : headerMatch l = some (k, g)) :
    l = List.replicate k '#' ++ l.dropWhile (fun c => c == '#') ∧ 1 ≤ k := by
  obtain ⟨hk, h1, _, _, _⟩ := headerMatch_some_parts h
  constructor
  · conv_lhs => rw [← List.takeWhile_append_dropWhile (p := fun c => c == '#') (l := l)]
    rw [takeWhile_hash_replicate, ← hk]
  · exact h1

theorem headerMatch_head_hash {l : List Char} {k : Nat} {g : List Char}
    (h : headerMatch l = some (k, g)) : ∃ t, l = '#' :: t := by
  obtain ⟨hshape, h1⟩ := headerMatch_some_shape h
  cases k with
  | zero => omega
  | succ k =>
    exact ⟨List.replicate k '#' ++ l.dropWhile (fun c => c == '#'), by simpa using hshape⟩

theorem strip_joinLines_header_ne_nil {h : List Char} {k : Nat} {g : List Char}
    (hm : headerMatch h = some (k, g)) (post : List (List Char)) :
    strip (joinLines (h :: post)) ≠ [] := by
  obtain ⟨t, rfl⟩ := headerMatch_head_hash hm
  rw [joinLines_cons_cons, strip_cons_of_neg (by decide)]
  simp

theorem strip_join_header_spaces {h : List Char} {k : Nat} {g : List Char}
    {mid : List (List Char)} (hm : headerMatch h = some (k, g))
    (hmid : ∀ l ∈ mid, allSpace l) (hr : rtrim h = h) :
    strip (joinLines (h :: mid)) = h := by
  obtain ⟨t, ht⟩ := headerMatch_head_hash hm
  cases mid with
  | nil =>
    show strip h = h
    rw [ht, strip_cons_of_neg (by decide)]
    rw [ht] at hr
    rw [rtrim_cons_of_neg (by decide)] at hr
    simpa using hr
  | cons m mid2 =>
    have hjoin : joinLines (h :: m :: mid2) = h ++ '\n' :: joinLines (m :: mid2) := by
      have := joinLines_append (a := [h]) (b := m :: mid2) (by simp) (by simp)
      simpa using this
    rw [hjoin]
    have hw : allSpace ('\n' :: joinLines (m :: mid2)) := by
      intro c hc
      rcases List.mem_cons.mp hc with hc | hc
      · subst hc; decide
      · exact allSpace_joinLines hmid c hc
    unfold strip
    rw [ht, List.cons_append, ltrim_cons_of_neg (by decide), ← List.cons_append, ← ht]
    rw [rtrim_append_of_allSpace hw, hr]

/-! ### Lemmas about the sectioning loop -/

theorem flushAcc_spec (src : List Char) (cs : List Chunk) (acc : List (List Char))
    (hs : List (List Char)) (n : Nat) :
    flushAcc src cs acc hs n = (cs, n) ∨
      (strip (joinLines acc) ≠ [] ∧
       flushAcc src cs acc hs n =
         (cs ++ [⟨src ++ '_' :: Nat.toDigits 10 n, src, nonEmptySlots hs,
                  strip (joinLines acc)⟩], n + 1)) := by
  simp only [flushAcc]
  split_ifs with h1 h2
  · exact Or.inl rfl
  · exact Or.inl rfl
  · exact Or.inr ⟨h2, rfl⟩

theorem flushAcc_fst_mono (src : List Char) (cs : List Chunk) (acc : List (List Char))
    (hs : List (List Char)) (n : Nat) :
    ∃ u, (flushAcc src cs acc hs n).1 = cs ++ u := by
  rcases flushAcc_spec src cs acc hs n with hsp | ⟨_, hsp⟩
  · exact ⟨[], by rw [hsp]; simp⟩
  · exact ⟨_, by rw [hsp]⟩

theorem flushAcc_of_allSpace {acc : List (List Char)} (h : ∀ l ∈ acc, allSpace l)
    (src : List Char) (cs : List Chunk) (hs : List (List Char)) (n : Nat) :
    flushAcc src cs acc hs n = (cs, n) := by
  rcases flushAcc_spec src cs acc hs n with hsp | ⟨hne, _⟩
  · exact hsp
  · exact absurd (strip_eq_nil_of_allSpace (allSpace_joinLines h)) hne

theorem flushAcc_of_strip_ne {acc : List (List Char)} (hne : acc ≠ [])
    (hs2 : strip (joinLines acc) ≠ []) (src : List Char) (cs : List Chunk)
    (hs : List (List Char)) (n : Nat) :
    flushAcc src cs acc hs n =
      (cs ++ [⟨src ++ '_' :: Nat.toDigits 10 n, src, nonEmptySlots hs,
               strip (joinLines acc)⟩], n + 1) := by
  simp only [flushAcc, if_neg hne]
  rw [if_neg hs2]

theorem foldl_stepLine_no_header {ls : List (List Char)}
    (h : ∀ l ∈ ls, headerMatch l = none) (src : List Char) (st : SectState) :
    List.foldl (stepLine src) st ls = { st with acc := st.acc ++ ls } := by
  induction ls generalizing st with
  | nil => simp
  | cons l ls ih =>
    have hl : headerMatch l = none := h l (List.mem_cons_self _ _)
    have hstep : stepLine src st l = { st with acc := st.acc ++ [l] } := by
      unfold stepLine
      rw [hl]
    rw [List.foldl_cons, hstep, ih (fun x hx => h x (List.mem_cons_of_mem _ hx))]
    simp

theorem stepLine_chunks_mono (src : List Char) (st : SectState) (l : List Char) :
    ∃ t, (stepLine src st l).chunks = st.chunks ++ t := by
  cases hm : headerMatch l with
  | none =>
    refine ⟨[], ?_⟩
    unfold stepLine
    rw [hm]
    simp
  | some kg =>
    obtain ⟨k, g⟩ := kg
    have hch : (stepLine src st l).chunks =
        (flushAcc src st.chunks st.acc st.headers st.chunkId).1 := by
      unfold stepLine
      rw [hm]
    rcases flushAcc_spec src st.chunks st.acc st.headers st.chunkId with hsp | ⟨_, hsp⟩
    · exact ⟨[], by rw [hch, hsp]; simp⟩
    · exact ⟨[⟨src ++ '_' :: Nat.toDigits 10 st.chunkId, src, nonEmptySlots st.headers,
        strip (joinLines st.acc)⟩], by rw [hch, hsp]⟩

theorem foldl_chunks_mono (src : List Char) (ls : List (List Char)) (st : SectState) :
    ∃ t, (List.foldl (stepLine src) st ls).chunks = st.chunks ++ t := by
  induction ls generalizing st with
  | nil => exact ⟨[], by simp⟩
  | cons l ls ih =>
    obtain ⟨t1, h1⟩ := stepLine_chunks_mono src st l
    obtain ⟨t2, h2⟩ := ih (stepLine src st l)
    exact ⟨t1 ++ t2, by rw [List.foldl_cons, h2, h1, List.append_assoc]⟩

theorem stepLine_headers (src : List Char) (st : SectState) (l : List Char) :
    (stepLine src st l).headers = hierStep st.headers l := by
  unfold stepLine hierStep
  cases hm : headerMatch l with
  | none => rfl
  | some kg =>
    obtain ⟨k, g⟩ := kg
    rfl

theorem foldl_headers (src : List Char) (ls : List (List Char)) (st : SectState) :
    (List.foldl (stepLine src) st ls).headers = hierAfter st.headers ls := by
  induction ls generalizing st with
  | nil => rfl
  | cons l ls ih =>
    rw [List.foldl_cons]
    show (List.foldl (stepLine src) (stepLine src st l) ls).headers =
      List.foldl hierStep (hierStep st.headers l) ls
    rw [ih, ← stepLine_headers]
    rfl

/-- A document none of whose lines matches the header pattern yields the
whole stripped document as a single chunk with empty headers — or nothing,
when the stripped document is empty. -/
theorem chunk_markdown_no_headers {content : List Char}
    (h : ∀ l ∈ splitLines content, headerMatch l = none) (source : List Char) :
    chunk_markdown content source =
      if strip content = [] then []
      else [⟨source ++ '_' :: Nat.toDigits 10 0, source, [], strip content⟩] := by
  unfold chunk_markdown
  rw [foldl_stepLine_no_header h]
  simp only
  unfold flushAcc
  have hne : ([] : List (List Char)) ++ splitLines content ≠ [] := by
    simpa using splitLines_ne_nil content
  rw [if_neg hne]
  simp only [List.nil_append]
  rw [joinLines_splitLines]
  split_ifs with h2
  · rfl
  · rfl

/-- A whitespace-only document yields no chunks. -/
theorem chunk_markdown_allSpace {content : List Char} (h : allSpace content)
    (source : List Char) : chunk_markdown content source = [] := by
  have hlines : ∀ l ∈ splitLines content, headerMatch l = none := by
    intro l hl
    exact headerMatch_of_allSpace (fun c hc => h c (mem_of_mem_splitLines hl hc))
  rw [chunk_markdown_no_headers hlines, if_pos (strip_eq_nil_of_allSpace h)]

/-! ### Lemmas about the hierarchy update -/

theorem updateHeaders_eq {hs : List (List Char)} (hlen : hs.length = 5) {L : Nat}
    (h1 : 1 ≤ L) (h5 : L ≤ 5) (t : List Char) :
    updateHeaders hs L t = hs.take (L - 1) ++ t :: List.replicate (5 - L) [] := by
  rcases hs with _ | ⟨a, _ | ⟨b, _ | ⟨c, _ | ⟨d, _ | ⟨e, _ | ⟨f, tl⟩⟩⟩⟩⟩⟩ <;>
    simp only [List.length] at hlen <;> try omega
  interval_cases L <;> rfl

theorem filter_nonEmpty_replicate_nil (a : Nat) :
    List.filter (fun h => !h.isEmpty) (List.replicate a ([] : List Char)) = [] := by
  induction a with
  | zero => rfl
  | succ a ih => simp [List.replicate_succ, ih]

theorem nonEmptySlots_single {t : List Char} (ht : t ≠ []) (a b : Nat) :
    nonEmptySlots (List.replicate a [] ++ t :: List.replicate b []) = [t] := by
  unfold nonEmptySlots
  rw [List.filter_append, filter_nonEmpty_replicate_nil]
  have htt : (!t.isEmpty) = true := by
    cases t with
    | nil => exact absurd rfl ht
    | cons x xs => rfl
  rw [List.nil_append, List.filter_cons]
  simp only [htt, if_pos]
  rw [filter_nonEmpty_replicate_nil]

theorem initHeaders_take (n : Nat) (hn : n ≤ 5) :
    initHeaders.take n = List.replicate n [] := by
  show (List.replicate 5 ([] : List Char)).take n = List.replicate n []
  rw [List.take_replicate]
  congr 1
  omega

theorem nonEmptySlots_update_init {k : Nat} (h1 : 1 ≤ k) (h5 : k ≤ 5)
    {t : List Char} (ht : t ≠ []) :
    nonEmptySlots (updateHeaders initHeaders k t) = [t] := by
  rw [updateHeaders_eq (show initHeaders.length = 5 from rfl) h1 h5,
    initHeaders_take (k - 1) (by omega)]
  exact nonEmptySlots_single ht _ _

theorem nonEmptySlots_init : nonEmptySlots initHeaders = [] := rfl

/-! ### Chunk-id bookkeeping -/

theorem flushAcc_ids (acc hs : List (List Char)) {src : List Char} {cs : List Chunk}
    {n : Nat}
    (h : cs.map Chunk.id = (List.range n).map (fun i => src ++ '_' :: Nat.toDigits 10 i)) :
    (flushAcc src cs acc hs n).1.map Chunk.id =
      (List.range (flushAcc src cs acc hs n).2).map
        (fun i => src ++ '_' :: Nat.toDigits 10 i) := by
  rcases flushAcc_spec src cs acc hs n with hsp | ⟨_, hsp⟩
  · rw [hsp]; exact h
  · rw [hsp]
    simp only [List.map_append, List.map_cons, List.map_nil]
    rw [h, List.range_succ, List.map_append]
    rfl

theorem stepLine_ids {src : List Char} {st : SectState} (l : List Char)
    (h : st.chunks.map Chunk.id =
      (List.range st.chunkId).map (fun i => src ++ '_' :: Nat.toDigits 10 i)) :
    (stepLine src st l).chunks.map Chunk.id =
      (List.range (stepLine src st l).chunkId).map
        (fun i => src ++ '_' :: Nat.toDigits 10 i) := by
  cases hm : headerMatch l with
  | none =>
    unfold stepLine
    rw [hm]
    exact h
  | some kg =>
    obtain ⟨k, g⟩ := kg
    unfold stepLine
    rw [hm]
    exact flushAcc_ids _ _ h

theorem foldl_ids (src : List Char) (ls : List (List Char)) (st : SectState)
    (h : st.chunks.map Chunk.id =
      (List.range st.chunkId).map (fun i => src ++ '_' :: Nat.toDigits 10 i)) :
    (List.foldl (stepLine src) st ls).chunks.map Chunk.id =
      (List.range (List.foldl (stepLine src) st ls).chunkId).map
        (fun i => src ++ '_' :: Nat.toDigits 10 i) := by
  induction ls generalizing st with
  | nil => exact h
  | cons l ls ih =>
    rw [List.foldl_cons]
    exact ih (stepLine src st l) (stepLine_ids l h)

/-- Every `chunk_markdown` result carries ids `source_0, source_1, …` in
order: mapping `Chunk.id` over the result equals the enumeration of its own
indices rendered as `source ++ "_" ++ decimal i`. -/
theorem chunk_markdown_ids_general (content source : List Char) :
    (chunk_markdown content source).map Chunk.id =
      (List.range (chunk_markdown content source).length).map
        (fun i => source ++ '_' :: Nat.toDigits 10 i) := by
  unfold chunk_markdown
  simp only
  have hinv := foldl_ids source (splitLines content)
    { chunks := [], acc := [], headers := initHeaders, chunkId := 0 } (by rfl)
  have hfin := flushAcc_ids
    ((splitLines content).foldl (stepLine source)
      { chunks := [], acc := [], headers := initHeaders, chunkId := 0 }).acc
    ((splitLines content).foldl (stepLine source)
      { chunks := [], acc := [], headers := initHeaders, chunkId := 0 }).headers hinv
  rw [hfin]
  congr 1
  congr 1
  have := congrArg List.length hfin
  simpa using this.symm

/-! ### Chunk-headers bookkeeping -/

theorem hierAfter_append (hs : List (List Char)) (a b : List (List Char)) :
    hierAfter hs (a ++ b) = hierAfter (hierAfter hs a) b := by
  unfold hierAfter
  rw [List.foldl_append]

theorem foldl_flush_inv (src : List Char) (ls : List (List Char)) :
    ∀ (st : SectState) (done : List (List Char)),
      st.acc <:+ done →
      st.headers = hierAfter initHeaders done →
      (∀ ch ∈ st.chunks, ∃ m, m ≤ done.length ∧
          (∃ run, run <:+ done.take m ∧ ch.text = strip (joinLines run)) ∧
          ch.headers = nonEmptySlots (hierAfter initHeaders (done.take m))) →
      ((List.foldl (stepLine src) st ls).acc <:+ (done ++ ls) ∧
       (List.foldl (stepLine src) st ls).headers = hierAfter initHeaders (done ++ ls) ∧
       ∀ ch ∈ (List.foldl (stepLine src) st ls).chunks, ∃ m, m ≤ (done ++ ls).length ∧
         (∃ run, run <:+ (done ++ ls).take m ∧ ch.text = strip (joinLines run)) ∧
         ch.headers = nonEmptySlots (hierAfter initHeaders ((done ++ ls).take m))) := by
  induction ls with
  | nil =>
    intro st done hacc hhd hchunks
    simp only [List.foldl_nil, List.append_nil]
    exact ⟨hacc, hhd, hchunks⟩
  | cons l ls ih =>
    intro st done hacc hhd hchunks
    have htransport : ∀ ch ∈ st.chunks, ∃ m, m ≤ (done ++ [l]).length ∧
        (∃ run, run <:+ (done ++ [l]).take m ∧ ch.text = strip (joinLines run)) ∧
        ch.headers = nonEmptySlots (hierAfter initHeaders ((done ++ [l]).take m)) := by
      intro ch hm2
      obtain ⟨m, hm, hrun, he⟩ := hchunks ch hm2
      refine ⟨m, by simp; omega, ?_, ?_⟩
      · rw [List.take_append_of_le_length hm]
        exact hrun
      · rw [List.take_append_of_le_length hm]
        exact he
    have hacc2 : (stepLine src st l).acc <:+ done ++ [l] := by
      cases hm : headerMatch l with
      | none =>
        have heq : (stepLine src st l).acc = st.acc ++ [l] := by
          unfold stepLine
          rw [hm]
        rw [heq]
        obtain ⟨x, hx⟩ := hacc
        exact ⟨x, by rw [← hx, List.append_assoc]⟩
      | some kg =>
        obtain ⟨k, g⟩ := kg
        have heq : (stepLine src st l).acc = [l] := by
          unfold stepLine
          rw [hm]
        rw [heq]
        exact List.suffix_append done [l]
    have hhd2 : (stepLine src st l).headers = hierAfter initHeaders (done ++ [l]) := by
      rw [stepLine_headers, hhd, hierAfter_append]
      rfl
    have hchunks2 : ∀ ch ∈ (stepLine src st l).chunks, ∃ m, m ≤ (done ++ [l]).length ∧
        (∃ run, run <:+ (done ++ [l]).take m ∧ ch.text = strip (joinLines run)) ∧
        ch.headers = nonEmptySlots (hierAfter initHeaders ((done ++ [l]).take m)) := by
      intro ch hmem
      cases hm : headerMatch l with
      | none =>
        have heq : (stepLine src st l).chunks = st.chunks := by
          unfold stepLine
          rw [hm]
        rw [heq] at hmem
        exact htransport ch hmem
      | some kg =>
        obtain ⟨k, g⟩ := kg
        have hsteq : (stepLine src st l).chunks =
            (flushAcc src st.chunks st.acc st.headers st.chunkId).1 := by
          unfold stepLine
          rw [hm]
        rw [hsteq] at hmem
        rcases flushAcc_spec src st.chunks st.acc st.headers st.chunkId
          with hsp | ⟨_, hsp⟩
        · rw [hsp] at hmem
          exact htransport ch hmem
        · rw [hsp] at hmem
          simp only [List.mem_append, List.mem_singleton] at hmem
          rcases hmem with hmem | hmem
          · exact htransport ch hmem
          · subst hmem
            refine ⟨done.length, by simp, ⟨st.acc, ?_, rfl⟩, ?_⟩
            · rw [List.take_append_of_le_length (Nat.le_refl _), List.take_length]
              exact hacc
            · rw [List.take_append_of_le_length (Nat.le_refl _), List.take_length, ← hhd]
    have hrec := ih (stepLine src st l) (done ++ [l]) hacc2 hhd2 hchunks2
    rw [List.foldl_cons]
    have hassoc : (done ++ [l]) ++ ls = done ++ l :: ls := by simp
    rw [hassoc] at hrec
    exact hrec

/-- Every chunk records a flush point `m`: its text is the stripped join of
the lines it accumulated — a suffix `run` of the first `m` lines — and its
headers are the non-empty hierarchy slots after scanning exactly those `m`
lines (so the hierarchy as it stood at the end of accumulating the chunk's
lines, the chunk's own leading header included). -/
theorem chunk_markdown_flush_points (content source : List Char) :
    ∀ ch ∈ chunk_markdown content source, ∃ m, m ≤ (splitLines content).length ∧
      (∃ run, run <:+ (splitLines content).take m ∧ ch.text = strip (joinLines run)) ∧
      ch.headers = nonEmptySlots (hierAfter initHeaders ((splitLines content).take m)) := by
  intro ch hch
  unfold chunk_markdown at hch
  simp only at hch
  obtain ⟨haccI, hhdI, hchunksI⟩ := foldl_flush_inv source (splitLines content)
    { chunks := [], acc := [], headers := initHeaders, chunkId := 0 } []
    (by simp) rfl (by intro ch2 hm2; simp at hm2)
  simp only [List.nil_append] at haccI hhdI hchunksI
  rcases flushAcc_spec source
    ((splitLines content).foldl (stepLine source)
      { chunks := [], acc := [], headers := initHeaders, chunkId := 0 }).chunks
    ((splitLines content).foldl (stepLine source)
      { chunks := [], acc := [], headers := initHeaders, chunkId := 0 }).acc
    ((splitLines content).foldl (stepLine source)
      { chunks := [], acc := [], headers := initHeaders, chunkId := 0 }).headers
    ((splitLines content).foldl (stepLine source)
      { chunks := [], acc := [], headers := initHeaders, chunkId := 0 }).chunkId
    with hsp | ⟨_, hsp⟩
  · rw [hsp] at hch
    exact hchunksI ch hch
  · rw [hsp] at hch
    simp only [List.mem_append, List.mem_singleton] at hch
    rcases hch with hch | hch
    · exact hchunksI ch hch
    · subst hch
      refine ⟨(splitLines content).length, Nat.le_refl _, ⟨_, ?_, rfl⟩, ?_⟩
      · rw [List.take_length]
        exact haccI
      · rw [List.take_length, ← hhdI]

/-! ### Chunk-text bookkeeping -/

theorem foldl_text_inv (src : List Char) (ls : List (List Char)) :
    ∀ (st : SectState) (done : List (List Char)),
      st.acc <:+ done →
      (∀ ch ∈ st.chunks, ∃ run, run <:+: (done ++ ls) ∧
          ch.text = strip (joinLines run) ∧ ch.text ≠ []) →
      ((List.foldl (stepLine src) st ls).acc <:+ (done ++ ls) ∧
       ∀ ch ∈ (List.foldl (stepLine src) st ls).chunks,
         ∃ run, run <:+: (done ++ ls) ∧ ch.text = strip (joinLines run) ∧ ch.text ≠ []) := by
  induction ls with
  | nil =>
    intro st done hacc hchunks
    simp only [List.foldl_nil, List.append_nil]
    exact ⟨hacc, by simpa using hchunks⟩
  | cons l ls ih =>
    intro st done hacc hchunks
    have hassoc : (done ++ [l]) ++ ls = done ++ l :: ls := by simp
    have hacc2 : (stepLine src st l).acc <:+ done ++ [l] := by
      cases hm : headerMatch l with
      | none =>
        have : (stepLine src st l).acc = st.acc ++ [l] := by
          unfold stepLine
          rw [hm]
        rw [this]
        obtain ⟨x, hx⟩ := hacc
        exact ⟨x, by rw [← hx, List.append_assoc]⟩
      | some kg =>
        obtain ⟨k, g⟩ := kg
        have : (stepLine src st l).acc = [l] := by
          unfold stepLine
          rw [hm]
        rw [this]
        exact List.suffix_append done [l]
    have hchunks2 : ∀ ch ∈ (stepLine src st l).chunks,
        ∃ run, run <:+: ((done ++ [l]) ++ ls) ∧
          ch.text = strip (joinLines run) ∧ ch.text ≠ [] := by
      rw [hassoc]
      intro ch hmem
      cases hm : headerMatch l with
      | none =>
        have : (stepLine src st l).chunks = st.chunks := by
          unfold stepLine
          rw [hm]
        rw [this] at hmem
        exact hchunks ch hmem
      | some kg =>
        obtain ⟨k, g⟩ := kg
        have hsteq : (stepLine src st l).chunks =
            (flushAcc src st.chunks st.acc st.headers st.chunkId).1 := by
          unfold stepLine
          rw [hm]
        rw [hsteq] at hmem
        rcases flushAcc_spec src st.chunks st.acc st.headers st.chunkId
          with hsp | ⟨hne, hsp⟩
        · rw [hsp] at hmem
          exact hchunks ch hmem
        · rw [hsp] at hmem
          simp only [List.mem_append, List.mem_singleton] at hmem
          rcases hmem with hmem | hmem
          · exact hchunks ch hmem
          · subst hmem
            refine ⟨st.acc, ?_, rfl, hne⟩
            exact (hacc.isInfix).trans (List.prefix_append done (l :: ls)).isInfix
    have hrec := ih (stepLine src st l) (done ++ [l]) hacc2 hchunks2
    rw [List.foldl_cons]
    rw [hassoc] at hrec
    exact hrec

/-- Every chunk's text is non-empty, already stripped, and is the stripped
newline-join of an infix run of the document's lines; in particular it is an
infix of the original content. -/
theorem chunk_markdown_text_general (content source : List Char) :
    ∀ ch ∈ chunk_markdown content source,
      ch.text ≠ [] ∧ strip ch.text = ch.text ∧ ch.text <:+: content ∧
      ∃ run, run <:+: splitLines content ∧ ch.text = strip (joinLines run) := by
  have key : ∀ ch ∈ chunk_markdown content source,
      ∃ run, run <:+: splitLines content ∧ ch.text = strip (joinLines run) ∧
        ch.text ≠ [] := by
    intro ch hch
    unfold chunk_markdown at hch
    simp only at hch
    obtain ⟨haccI, hchunksI⟩ := foldl_text_inv source (splitLines content)
      { chunks := [], acc := [], headers := initHeaders, chunkId := 0 } []
      (by simp) (by intro ch2 hm2; simp at hm2)
    simp only [List.nil_append] at haccI hchunksI
    rcases flushAcc_spec source
      ((splitLines content).foldl (stepLine source)
        { chunks := [], acc := [], headers := initHeaders, chunkId := 0 }).chunks
      ((splitLines content).foldl (stepLine source)
        { chunks := [], acc := [], headers := initHeaders, chunkId := 0 }).acc
      ((splitLines content).foldl (stepLine source)
        { chunks := [], acc := [], headers := initHeaders, chunkId := 0 }).headers
      ((splitLines content).foldl (stepLine source)
        { chunks := [], acc := [], headers := initHeaders, chunkId := 0 }).chunkId
      with hsp | ⟨hne, hsp⟩
    · rw [hsp] at hch
      exact hchunksI ch hch
    · rw [hsp] at hch
      simp only [List.mem_append, List.mem_singleton] at hch
      rcases hch with hch | hch
      · exact hchunksI ch hch
      · subst hch
        exact ⟨_, haccI.isInfix, rfl, hne⟩
  intro ch hch
  obtain ⟨run, hrun, htext, hne⟩ := key ch hch
  refine ⟨hne, by rw [htext]; exact strip_idem _, ?_, run, hrun, htext⟩
  calc ch.text <:+: joinLines run := by rw [htext]; exact strip_infix _
    _ <:+: joinLines (splitLines content) := joinLines_infix hrun
    _ = content := joinLines_splitLines content

/-! ### Scenario lemmas: a leading header after whitespace -/

theorem state_after_pre_header {pre : List (List Char)} (hpre : ∀ l ∈ pre, allSpace l)
    {h : List Char} {k : Nat} {g : List Char} (hm : headerMatch h = some (k, g))
    (src : List Char) :
    List.foldl (stepLine src)
        { chunks := [], acc := [], headers := initHeaders, chunkId := 0 } (pre ++ [h]) =
      { chunks := [], acc := [h],
        headers := updateHeaders initHeaders k (strip g), chunkId := 0 } := by
  rw [List.foldl_append]
  have hnone : ∀ l ∈ pre, headerMatch l = none :=
    fun l hl => headerMatch_of_allSpace (hpre l hl)
  rw [foldl_stepLine_no_header hnone]
  simp only [List.foldl_cons, List.foldl_nil, List.nil_append]
  unfold stepLine
  rw [hm]
  rw [flushAcc_of_allSpace hpre]

theorem chunk_markdown_single_header {content src : List Char}
    {pre post : List (List Char)} {h : List Char} {k : Nat} {g : List Char}
    (hsplit : splitLines content = pre ++ h :: post)
    (hpre : ∀ l ∈ pre, allSpace l)
    (hpost : ∀ l ∈ post, headerMatch l = none)
    (hm : headerMatch h = some (k, g)) :
    chunk_markdown content src =
      [⟨src ++ '_' :: Nat.toDigits 10 0, src,
        nonEmptySlots (updateHeaders initHeaders k (strip g)),
        strip (joinLines (h :: post))⟩] := by
  unfold chunk_markdown
  rw [hsplit]
  have hsegs : pre ++ h :: post = (pre ++ [h]) ++ post := by simp
  rw [hsegs, List.foldl_append, state_after_pre_header hpre hm,
    foldl_stepLine_no_header hpost]
  simp only
  rw [flushAcc_of_strip_ne (by simp) (by
    simpa using strip_joinLines_header_ne_nil hm post)]
  simp

theorem chunk_markdown_emits_first_header {content src : List Char}
    {pre mid post : List (List Char)} {h1 h2 : List Char} {k1 k2 : Nat}
    {g1 g2 : List Char}
    (hsplit : splitLines content = pre ++ h1 :: (mid ++ h2 :: post))
    (hmid : ∀ l ∈ mid, allSpace l)
    (hm1 : headerMatch h1 = some (k1, g1)) (hm2 : headerMatch h2 = some (k2, g2)) :
    ∃ ch ∈ chunk_markdown content src,
      ch.text = strip (joinLines (h1 :: mid)) ∧
      ch.headers = nonEmptySlots (hierAfter initHeaders (pre ++ [h1])) := by
  set st0 : SectState := { chunks := [], acc := [], headers := initHeaders, chunkId := 0 }
    with hst0
  set stPre := List.foldl (stepLine src) st0 pre with hstPre
  set FL := flushAcc src stPre.chunks stPre.acc stPre.headers stPre.chunkId with hFL
  set c : Chunk := ⟨src ++ '_' :: Nat.toDigits 10 FL.2, src,
    nonEmptySlots (updateHeaders stPre.headers k1 (strip g1)),
    strip (joinLines (h1 :: mid))⟩ with hc
  have hstepA : List.foldl (stepLine src) st0 (pre ++ [h1]) = stepLine src stPre h1 := by
    rw [List.foldl_append, List.foldl_cons, List.foldl_nil]
  have hA : stepLine src stPre h1 =
      { chunks := FL.1, acc := [h1],
        headers := updateHeaders stPre.headers k1 (strip g1), chunkId := FL.2 } := by
    unfold stepLine
    rw [hm1]
  have hB : List.foldl (stepLine src) (stepLine src stPre h1) mid =
      { chunks := FL.1, acc := [h1] ++ mid,
        headers := updateHeaders stPre.headers k1 (strip g1), chunkId := FL.2 } := by
    rw [hA, foldl_stepLine_no_header (fun l hl => headerMatch_of_allSpace (hmid l hl))]
  have hC : stepLine src
      { chunks := FL.1, acc := [h1] ++ mid,
        headers := updateHeaders stPre.headers k1 (strip g1), chunkId := FL.2 } h2 =
      { chunks := FL.1 ++ [c], acc := [h2],
        headers := updateHeaders (updateHeaders stPre.headers k1 (strip g1)) k2 (strip g2),
        chunkId := FL.2 + 1 } := by
    unfold stepLine
    rw [hm2]
    simp only
    rw [flushAcc_of_strip_ne (by simp) (by
      simpa using strip_joinLines_header_ne_nil hm1 mid)]
    simp [hc]
  have hfinal : ∃ v, chunk_markdown content src = FL.1 ++ c :: v := by
    unfold chunk_markdown
    rw [hsplit]
    have hsegs : pre ++ h1 :: (mid ++ h2 :: post) =
        (((pre ++ [h1]) ++ mid) ++ [h2]) ++ post := by
      simp
    rw [hsegs, List.foldl_append, List.foldl_append, List.foldl_append, hstepA, hB]
    simp only [List.foldl_cons, List.foldl_nil]
    rw [hC]
    obtain ⟨t, ht⟩ := foldl_chunks_mono src post
      { chunks := FL.1 ++ [c], acc := [h2],
        headers := updateHeaders (updateHeaders stPre.headers k1 (strip g1)) k2 (strip g2),
        chunkId := FL.2 + 1 }
    obtain ⟨u, hu⟩ := flushAcc_fst_mono src
      (List.foldl (stepLine src)
        { chunks := FL.1 ++ [c], acc := [h2],
          headers := updateHeaders (updateHeaders stPre.headers k1 (strip g1)) k2 (strip g2),
          chunkId := FL.2 + 1 } post).chunks
      (List.foldl (stepLine src)
        { chunks := FL.1 ++ [c], acc := [h2],
          headers := updateHeaders (updateHeaders stPre.headers k1 (strip g1)) k2 (strip g2),
          chunkId := FL.2 + 1 } post).acc
      (List.foldl (stepLine src)
        { chunks := FL.1 ++ [c], acc := [h2],
          headers := updateHeaders (updateHeaders stPre.headers k1 (strip g1)) k2 (strip g2),
          chunkId := FL.2 + 1 } post).headers
      (List.foldl (stepLine src)
        { chunks := FL.1 ++ [c], acc := [h2],
          headers := updateHeaders (updateHeaders stPre.headers k1 (strip g1)) k2 (strip g2),
          chunkId := FL.2 + 1 } post).chunkId
    refine ⟨t ++ u, ?_⟩
    rw [hu, ht]
    simp
  obtain ⟨v, hv⟩ := hfinal
  refine ⟨c, ?_, rfl, ?_⟩
  · rw [hv]
    simp
  · show nonEmptySlots (updateHeaders stPre.headers k1 (strip g1)) =
      nonEmptySlots (hierAfter initHeaders (pre ++ [h1]))
    rw [hierAfter_append]
    have hpreHd : stPre.headers = hierAfter initHeaders pre := by
      rw [hstPre]
      exact foldl_headers src pre st0
    rw [← hpreHd]
    congr 1
    show updateHeaders stPre.headers k1 (strip g1) = hierStep stPre.headers h1
    unfold hierStep
    rw [hm1]

/-! ### The claims -/

/-- C1: processing a header line of level `L` (1 ≤ L ≤ 5) writes the
header's trimmed text into slot `L` and clears every slot at levels
`L+1 .. 5` unconditionally, keeping slots below `L`; consequently, on
`"# H1\n\n## H2\n\n### H3\n\nX\n\n## H2b\n\nY"` the chunk containing `Y`
carries headers exactly `["H1", "H2b"]`, with `H3` gone. -/
theorem claim_C1_header_reset :
    (∀ (hs : List (List Char)) (L : Nat) (t : List Char), hs.length = 5 → 1 ≤ L → L ≤ 5 →
      updateHeaders hs L t = hs.take (L - 1) ++ t :: List.replicate (5 - L) []) ∧
    (chunk_markdown "# H1\n\n## H2\n\n### H3\n\nX\n\n## H2b\n\nY".data "s".data).map
        (fun c => (c.headers, c.text)) =
      [(["H1".data], "# H1".data),
       (["H1".data, "H2".data], "## H2".data),
       (["H1".data, "H2".data, "H3".data], "### H3\n\nX".data),
       (["H1".data, "H2b".data], "## H2b\n\nY".data)] := by
  constructor
  · intro hs L t hlen h1 h5
    exact updateHeaders_eq hlen h1 h5 t
  · decide

theorem claim_C1_header_reset_witness :
    updateHeaders ["a".data, "b".data, "c".data, "d".data, "e".data] 2 "X".data =
      ["a".data, "b".data, "c".data, "d".data, "e".data].take (2 - 1) ++
        "X".data :: List.replicate (5 - 2) [] :=
  claim_C1_header_reset.1 ["a".data, "b".data, "c".data, "d".data, "e".data] 2
    "X".data rfl (by decide) (by decide)

/-- C2: each chunk's `headers` field is the list of non-empty hierarchy
slots, in level order, as the hierarchy stands at the end of accumulating
that chunk's lines: there is a flush point `m` such that the chunk's text is
the stripped join of the lines it accumulated — a suffix of the first `m`
lines, so its own leading header line lies within them — and its headers are
the non-empty slots after scanning exactly those `m` lines; and a document
that is whitespace, then one header line with non-blank title, then
header-free lines, yields exactly one chunk whose headers are exactly that
one title. -/
theorem claim_C2_headers_reflect_hierarchy (content source : List Char) :
    (∀ ch ∈ chunk_markdown content source, ∃ m, m ≤ (splitLines content).length ∧
      (∃ run, run <:+ (splitLines content).take m ∧ ch.text = strip (joinLines run)) ∧
      ch.headers = nonEmptySlots (hierAfter initHeaders ((splitLines content).take m))) ∧
    (∀ (pre post : List (List Char)) (h : List Char) (k : Nat) (g : List Char),
      splitLines content = pre ++ h :: post →
      (∀ l ∈ pre, allSpace l) →
      (∀ l ∈ post, headerMatch l = none) →
      headerMatch h = some (k, g) →
      strip g ≠ [] →
      chunk_markdown content source =
        [⟨source ++ '_' :: Nat.toDigits 10 0, source, [strip g],
          strip (joinLines (h :: post))⟩]) := by
  constructor
  · exact chunk_markdown_flush_points content source
  · intro pre post h k g hsplit hpre hpost hm hg
    obtain ⟨_, h1, h5, _, _⟩ := headerMatch_some_parts hm
    rw [chunk_markdown_single_header hsplit hpre hpost hm,
      nonEmptySlots_update_init h1 h5 hg]

theorem claim_C2_witness :
    chunk_markdown "# T\nbody".data "s".data =
      [⟨"s".data ++ '_' :: Nat.toDigits 10 0, "s".data, [strip "T".data],
        strip (joinLines ("# T".data :: ["body".data]))⟩] :=
  (claim_C2_headers_reflect_hierarchy "# T\nbody".data "s".data).2 [] ["body".data]
    "# T".data 1 "T".data (by decide) (by decide) (by decide) (by decide) (by decide)

/-- C3: the ids of the chunks of `chunk_markdown content source` are exactly
`source_0, source_1, …` in return order with no gaps — the id at index `i`
is `source ++ "_" ++ decimal i` — and hence all ids are distinct. -/
theorem claim_C3_chunk_ids (content source : List Char) :
    (chunk_markdown content source).map Chunk.id =
      (List.range (chunk_markdown content source).length).map
        (fun i => source ++ '_' :: Nat.toDigits 10 i) ∧
    ((chunk_markdown content source).map Chunk.id).Nodup := by
  refine ⟨chunk_markdown_ids_general content source, ?_⟩
  rw [chunk_markdown_ids_general content source]
  exact (List.nodup_range _).map (chunkId_render_injective source)

/-- C4: a line matches the header pattern iff it decomposes as 1–5 `'#'`
characters, then at least one whitespace character, then at least one
further character; the matched level is the length of the leading hash run;
a line opening with six or more hashes never matches; and a non-matching
line is simply appended to the accumulator, changing nothing else. -/
theorem claim_C4_header_pattern :
    (∀ line : List Char,
      (headerMatch line).isSome = true ↔
        ∃ k w r, line = List.replicate k '#' ++ w ++ r ∧ 1 ≤ k ∧ k ≤ 5 ∧
          w ≠ [] ∧ allSpace w ∧ r ≠ []) ∧
    (∀ (line : List Char) (k : Nat) (g : List Char), headerMatch line = some (k, g) →
      k = (line.takeWhile (fun c => c == '#')).length) ∧
    (∀ line : List Char, 6 ≤ (line.takeWhile (fun c => c == '#')).length →
      headerMatch line = none) ∧
    (∀ (src : List Char) (st : SectState) (line : List Char), headerMatch line = none →
      stepLine src st line = { st with acc := st.acc ++ [line] }) := by
  refine ⟨headerMatch_isSome_decomp, ?_, ?_, ?_⟩
  · intro line k g hm
    exact (headerMatch_some_parts hm).1
  · intro line h6
    cases hm : headerMatch line with
    | none => rfl
    | some kg =>
      obtain ⟨k, g⟩ := kg
      have := (headerMatch_some_parts hm).2.2.1
      have hk := (headerMatch_some_parts hm).1
      omega
  · intro src st line hm
    unfold stepLine
    rw [hm]

theorem claim_C4_witness :
    headerMatch "###### x".data = none ∧
    1 = ("# t".data.takeWhile (fun c => c == '#')).length ∧
    stepLine "s".data ⟨[], [], initHeaders, 0⟩ "body".data =
      { chunks := [], acc := ([] : List (List Char)) ++ ["body".data],
        headers := initHeaders, chunkId := 0 } :=
  ⟨claim_C4_header_pattern.2.2.1 "###### x".data (by decide),
   claim_C4_header_pattern.2.1 "# t".data 1 "t".data (by decide),
   claim_C4_header_pattern.2.2.2 "s".data ⟨[], [], initHeaders, 0⟩ "body".data (by decide)⟩

/-- C5 counterexample: a line of one hash and two spaces DOES match the
header pattern (the greedy `\s+` backtracks, leaving a space for `(.+)`), so
`"#  "` inside a document causes a flush and resets the hierarchy — the
claim's predicted single chunk and untouched slots do not happen. -/
theorem claim_C5_counterexample :
    headerMatch "#  ".data = some (1, " ".data) ∧
    chunk_markdown "## H2\nX\n#  \nY".data "s".data =
      [⟨"s_0".data, "s".data, ["H2".data], "## H2\nX".data⟩,
       ⟨"s_1".data, "s".data, [], "#  \nY".data⟩] := by
  constructor
  · decide
  · decide

/-- C5 amended: a line of 1–5 hashes followed only by whitespace fails the
header match when it has zero or one trailing whitespace characters, but
matches when it has two or more — group 2 is then the last whitespace
character, so the header text strips to empty (slot `L` is set to the empty
string, deeper slots are cleared, and a flush occurs). -/
theorem claim_C5_amended (k : Nat) (w : List Char) (h1 : 1 ≤ k) (h5 : k ≤ 5)
    (hw : allSpace w) :
    headerMatch (List.replicate k '#' ++ w) =
      (if 2 ≤ w.length then some (k, w.drop (w.length - 1)) else none) ∧
    strip (w.drop (w.length - 1)) = [] := by
  have hrep : ∀ x ∈ List.replicate k '#', (fun c => c == '#') x = true := by
    intro x hx
    have := List.eq_of_mem_replicate hx
    simp [this]
  have htake : (List.replicate k '#' ++ w).takeWhile (fun c => c == '#') =
      List.replicate k '#' := by
    rw [takeWhile_append_of_all hrep]
    cases w with
    | nil => simp
    | cons c w2 =>
      have hc : isPySpace c = true := hw c (List.mem_cons_self _ _)
      have hchash : ¬((fun c => c == '#') c = true) := by
        simp only [beq_iff_eq]
        intro hcc
        subst hcc
        simp [isPySpace] at hc
      have hres : List.takeWhile (fun x => x == '#') (c :: w2) = [] :=
        List.takeWhile_cons_of_neg hchash
      rw [hres]
      simp
  have hdrop : (List.replicate k '#' ++ w).dropWhile (fun c => c == '#') = w := by
    rw [dropWhile_append_of_all hrep]
    cases w with
    | nil => simp
    | cons c w2 =>
      have hc : isPySpace c = true := hw c (List.mem_cons_self _ _)
      have hchash : ¬((fun c => c == '#') c = true) := by
        simp only [beq_iff_eq]
        intro hcc
        subst hcc
        simp [isPySpace] at hc
      exact List.dropWhile_cons_of_neg hchash
  have hws : w.takeWhile isPySpace = w := by
    have := takeWhile_append_of_all hw []
    simpa using this
  constructor
  · simp only [headerMatch, htake, hdrop, hws, List.length_replicate]
    split_ifs <;> first | rfl | omega
  · apply strip_eq_nil_of_allSpace
    intro c hc
    exact hw c (List.drop_subset _ _ hc)

theorem claim_C5_amended_witness :
    headerMatch (List.replicate 1 '#' ++ "  ".data) =
      (if 2 ≤ "  ".data.length then some (1, "  ".data.drop ("  ".data.length - 1))
       else none) ∧
    strip ("  ".data.drop ("  ".data.length - 1)) = [] :=
  claim_C5_amended 1 "  ".data (by decide) (by decide) (by decide)

/-- C6: in every document whose lines contain two header lines separated
only by whitespace lines — whatever precedes or follows the pair — reaching
the second header still emits a chunk for the first header: some chunk of
the result has text exactly the first header line (given that line carries
no trailing whitespace, so that it equals its own trim), carrying the
hierarchy as it stands just after that header; headers-only sections are
not dropped. -/
theorem claim_C6_consecutive_headers (content src : List Char)
    (pre mid post : List (List Char)) (h1 h2 : List Char) (k1 k2 : Nat)
    (g1 g2 : List Char)
    (hsplit : splitLines content = pre ++ h1 :: (mid ++ h2 :: post))
    (hmid : ∀ l ∈ mid, allSpace l)
    (hm1 : headerMatch h1 = some (k1, g1)) (hm2 : headerMatch h2 = some (k2, g2))
    (htrim : rtrim h1 = h1) :
    ∃ ch ∈ chunk_markdown content src, ch.text = h1 ∧
      ch.headers = nonEmptySlots (hierAfter initHeaders (pre ++ [h1])) := by
  obtain ⟨ch, hmem, htext, hhd⟩ := chunk_markdown_emits_first_header hsplit hmid hm1 hm2
  rw [strip_join_header_spaces hm1 hmid htrim] at htext
  exact ⟨ch, hmem, htext, hhd⟩

theorem claim_C6_witness :
    ∃ ch ∈ chunk_markdown "X\n# A\n# B".data "s".data, ch.text = "# A".data ∧
      ch.headers = nonEmptySlots (hierAfter initHeaders (["X".data] ++ ["# A".data])) :=
  claim_C6_consecutive_headers "X\n# A\n# B".data "s".data ["X".data] [] []
    "# A".data "# B".data 1 1 "A".data "B".data (by decide) (by decide) (by decide)
    (by decide) (by decide)

/-- C7: a document none of whose lines matches the header pattern yields at
most one chunk; when one is produced its headers are `[]` and its text is
the whole document stripped (so the stripped texts concatenate back to the
stripped document), and a whitespace-only document yields zero chunks. -/
theorem claim_C7_no_header_roundtrip (content source : List Char)
    (h : ∀ l ∈ splitLines content, headerMatch l = none) :
    chunk_markdown content source =
      (if strip content = [] then []
       else [⟨source ++ '_' :: Nat.toDigits 10 0, source, [], strip content⟩]) :=
  chunk_markdown_no_headers h source

theorem claim_C7_witness :
    chunk_markdown "hello\nworld".data "s".data =
      (if strip "hello\nworld".data = [] then []
       else [⟨"s".data ++ '_' :: Nat.toDigits 10 0, "s".data, [],
         strip "hello\nworld".data⟩]) :=
  claim_C7_no_header_roundtrip "hello\nworld".data "s".data (by decide)

/-- C8 counterexample: the document `"# A"` consists of a single header
line — no non-whitespace content outside a headers-only boundary — yet
`chunk_markdown` returns one chunk (the header line itself becomes the
chunk text), not the empty sequence. -/
theorem claim_C8_counterexample :
    chunk_markdown "# A".data "s".data =
      [⟨"s_0".data, "s".data, ["A".data], "# A".data⟩] := by
  decide

/-- C8 amended: `chunk_markdown` returns the empty sequence on the empty
document, on `"   \n\n  "`, and in general on every whitespace-only
document; headers-only documents, by contrast, do produce chunks. -/
theorem claim_C8_empty_results (source : List Char) :
    chunk_markdown [] source = [] ∧
    chunk_markdown "   \n\n  ".data source = [] ∧
    ∀ content : List Char, allSpace content → chunk_markdown content source = [] := by
  refine ⟨?_, ?_, ?_⟩
  · exact chunk_markdown_allSpace (by intro c hc; simp at hc) source
  · exact chunk_markdown_allSpace (by decide) source
  · intro content hc
    exact chunk_markdown_allSpace hc source

theorem claim_C8_empty_results_witness :
    chunk_markdown " \t ".data "s".data = [] :=
  (claim_C8_empty_results "s".data).2.2 " \t ".data (by decide)

/-- C9: the strings handed to the model's `encode` call are, in chunk
order, the chunk's headers joined by `" > "` plus a newline plus the chunk
text when headers exist, and the bare chunk text when they do not. -/
theorem claim_C9_embedding_texts (cs : List Chunk) :
    embeddingTexts cs = cs.map embedTextSpec := by
  unfold embeddingTexts
  induction cs with
  | nil => rfl
  | cons c cs ih =>
    have hc : embedText c = embedTextSpec c := by
      unfold embedText embedTextSpec
      cases h : c.headers with
      | nil => simp [h]
      | cons a t => simp [h]
    simp [ih, hc]

/-- C10: every chunk text is non-empty, free of leading and trailing
whitespace (stripping it is the identity), an infix of the original
content, and the stripped newline-join of a consecutive run of the
document's lines. -/
theorem claim_C10_text_invariants (content source : List Char) :
    ∀ ch ∈ chunk_markdown content source,
      ch.text ≠ [] ∧ strip ch.text = ch.text ∧ ch.text <:+: content ∧
      ∃ run, run <:+: splitLines content ∧ ch.text = strip (joinLines run) :=
  chunk_markdown_text_general content source

theorem claim_C10_witness :
    (Chunk.mk "s_0".data "s".data [] "hi".data).text ≠ [] ∧
    strip (Chunk.mk "s_0".data "s".data [] "hi".data).text =
      (Chunk.mk "s_0".data "s".data [] "hi".data).text ∧
    (Chunk.mk "s_0".data "s".data [] "hi".data).text <:+: " hi ".data ∧
    ∃ run, run <:+: splitLines " hi ".data ∧
      (Chunk.mk "s_0".data "s".data [] "hi".data).text = strip (joinLines run) :=
  claim_C10_text_invariants " hi ".data "s".data
    (Chunk.mk "s_0".data "s".data [] "hi".data) (by decide)
